import Mathlib

/-!
Verification of the Q47-Prime-Constellations repository.

This file gives a shallow embedding, in Lean 4, of the two Python source
files of the repository,

  * `verify_quadruplets.py`   (polynomial `Q`, Miller-Rabin tester,
    exclusion-theorem checker, quadruplet verifier), and
  * `scripts/compute_bateman_horn.py` (sieve of Eratosthenes, the local
    root-count `omega_Q`, its brute-force check, and the singular-series
    accumulator),

and proves, or refutes, the frozen specification claims about them.
Python's unbounded integers are modelled by `Nat`/`Int` (Python `%` on a
positive modulus agrees with `Int.emod`), the implicit random witness
stream of the Miller-Rabin test is modelled by an explicit oracle
`ws : ℕ → ℕ` giving the draw of each round, and Python `range` objects
are modelled by `List.range'`.
-/

/-- `Q(n) = n^47 - (n-1)^47`, from `verify_quadruplets.py` lines 12-14.
Python integers are unbounded and signed, hence `ℤ → ℤ`. -/
def Q (n : ℤ) : ℤ := n ^ 47 - (n - 1) ^ 47

/-- The `while d % 2 == 0: r += 1; d //= 2` loop of
`verify_quadruplets.py` lines 26-29, written with explicit fuel so that
it is structurally recursive.  `split2Aux fuel m` returns `(r, d)`.
The extra conjunct `m ≠ 0` only guards the (unreachable in the source,
where the loop starts from an even `m ≥ 4`) nonterminating case `m = 0`. -/
def split2Aux : ℕ → ℕ → ℕ × ℕ
  | 0, m => (0, m)
  | fuel + 1, m =>
    if m % 2 = 0 ∧ m ≠ 0 then
      let p := split2Aux fuel (m / 2)
      (p.1 + 1, p.2)
    else (0, m)

/-- `split2 m = (r, d)` with `m = 2^r * d`, `d` odd (for `m > 0`):
the decomposition `n - 1 = 2^r * d` of the source.  Fuel `m` always
suffices, since `m` halves at every step. -/
def split2 (m : ℕ) : ℕ × ℕ := split2Aux m m

/-- The inner witness-squaring loop of `verify_quadruplets.py` lines
39-44: `for _ in range(r-1): x = pow(x, 2, n); if x == n-1: break` with a
`for`-`else` that certifies compositeness.  The result is `true` when the
loop breaks (the witness passes) and `false` when the range is exhausted
(the `else` branch: `return False` in the source).  The fuel argument is
the number of remaining iterations, `r - 1` at the call site. -/
def mrWitnessLoop (n : ℕ) : ℕ → ℕ → Bool
  | _, 0 => false
  | x, t + 1 =>
    let x2 := x ^ 2 % n
    if x2 = n - 1 then true else mrWitnessLoop n x2 t

/-- One round of the Miller-Rabin loop of `verify_quadruplets.py` lines
32-44, for the drawn witness `a`: `x = pow(a, d, n)`; the witness passes
immediately when `x ∈ {1, n-1}`, otherwise the squaring loop decides.
Python's built-in `pow(a, d, n)` is modelled by `a ^ d % n`. -/
def millerRabinRound (n d r a : ℕ) : Bool :=
  let x := a ^ d % n
  if x = 1 ∨ x = n - 1 then true
  else mrWitnessLoop n x (r - 1)

/-- `is_prime_miller_rabin` from `verify_quadruplets.py` lines 16-45.
The source draws `a = random.randrange(2, n - 1)` in round `t`; the draw
stream is modelled by the oracle `ws`, round `t` using `ws t` (a valid
draw satisfies `2 ≤ ws t ≤ n - 2`).  The source returns `False` as soon
as one round fails; `List.all` returns the same value. -/
def is_prime_miller_rabin (n : ℕ) (k : ℕ) (ws : ℕ → ℕ) : Bool :=
  if n < 2 then false
  else if n = 2 ∨ n = 3 then true
  else if n % 2 = 0 then false
  else
    let rd := split2 (n - 1)
    (List.range k).all fun t => millerRabinRound n rd.2 rd.1 (ws t)

/-- `verify_exclusion_theorem` from `verify_quadruplets.py` lines 47-66:
for every `n` in `range(2, max_n + 1)` require `Q(n) % 3 == 1`,
returning `False` at the first counterexample, else `True`.
`List.all` short-circuits exactly like the early `return False`. -/
def verify_exclusion_theorem (max_n : ℕ) : Bool :=
  (List.range' 2 (max_n + 1 - 2)).all fun n => Q (n : ℤ) % 3 == 1

/-- The four candidate values `Q(n), Q(n+1), Q(n+2), Q(n+3)` that
`verify_quadruplet` (lines 68-83) feeds to the primality tester. -/
def quadrupletCandidates (n : ℤ) : List ℤ :=
  (List.range 4).map fun i => Q (n + (i : ℤ))

/-- `verify_quadruplet` from `verify_quadruplets.py` lines 68-83: tests
the four candidates with 25 Miller-Rabin rounds and collects the decimal
digit counts (`len(str(q))`, modelled by `Nat.digits 10`; every
candidate value is at least `1`, so `Int.toNat` is faithful).
`ws i` is the draw oracle used for candidate `i`. -/
def verify_quadruplet (n : ℤ) (ws : ℕ → ℕ → ℕ) : Bool × List ℕ :=
  let results := ((quadrupletCandidates n).zip (List.range 4)).map
    fun qi => (is_prime_miller_rabin qi.1.toNat 25 (ws qi.2), (Nat.digits 10 qi.1.toNat).length)
  (results.all fun r => r.1, results.map fun r => r.2)

/-- Error kind of the spec's modular-exponentiation contract (spec §7). -/
inductive ModPowError where
  | invalidModulus
deriving DecidableEq

/-- Modelled from the spec: the repository calls Python's built-in
three-argument `pow` (`verify_quadruplets.py` lines 34 and 40); the
modular-exponentiation routine itself is not part of the source files,
so it is modelled from spec §4.2: `mod_pow(base, exponent, modulus)`
returns `base ^ exponent mod modulus` (a value in `[0, modulus)`) for a
positive modulus and fails with `InvalidModulus` when `modulus ≤ 0`.
The non-negativity of the exponent is expressed by the type `ℕ`. -/
def mod_pow (base : ℤ) (exponent : ℕ) (modulus : ℤ) : Except ModPowError ℤ :=
  if modulus ≤ 0 then Except.error ModPowError.invalidModulus
  else Except.ok (base ^ exponent % modulus)

/-- One iteration of the outer marking loop of `sieve_primes` in
`scripts/compute_bateman_horn.py` lines 28-31: if index `i` is still
unmarked, mark every `j ∈ range(i*i, n + 1, i)` composite.
`range(a, b, s)` is `List.range' a ((b - a + s - 1) / s) s`; all writes
are in bounds, so `List.set` is faithful to the Python item assignment. -/
def sieveMark (n : ℕ) (t : List Bool) (i : ℕ) : List Bool :=
  if t.getD i false then
    (List.range' (i * i) ((n + 1 - i * i + i - 1) / i) i).foldl (fun s j => s.set j false) t
  else t

/-- The boolean table built by `sieve_primes` in
`scripts/compute_bateman_horn.py` lines 26-31: a table of size `n + 1`,
indices `0` and `1` pre-marked composite, then the marking loop over
`i ∈ range(2, int(n**0.5) + 1)` (the float square root is exact in the
source's range and modelled by `Nat.sqrt`). -/
def sieveTable (n : ℕ) : List Bool :=
  (List.range' 2 (Nat.sqrt n + 1 - 2)).foldl (sieveMark n)
    (((List.replicate (n + 1) true).set 0 false).set 1 false)

/-- The returned list comprehension of `sieve_primes`
(`scripts/compute_bateman_horn.py` line 32):
`[i for i in range(2, n + 1) if is_prime[i]]`. -/
def sieveList (n : ℕ) : List ℕ :=
  (List.range' 2 (n + 1 - 2)).filter fun i => (sieveTable n).getD i false

/-- `sieve_primes` from `scripts/compute_bateman_horn.py` lines 24-32.
For `n = 0` the source raises `IndexError`: the table `[True] * (n + 1)`
has length `1` and the pre-marking assignment `is_prime[1] = False` is
out of bounds; this failure is modelled by `none`. -/
def sieve_primes (n : ℕ) : Option (List ℕ) :=
  if n + 1 ≤ 1 then none
  else some (sieveList n)

/-- `omega_Q` from `scripts/compute_bateman_horn.py` lines 35-53. -/
def omega_Q (p : ℕ) : ℕ :=
  if p = 47 then 0
  else if (p - 1) % 47 = 0 then 46
  else 0

/-- The brute-force root count of `verify_omega_computationally`
(`scripts/compute_bateman_horn.py` line 128): the number of
`n ∈ range(p)` with `(pow(n, 47, p) - pow((n - 1) % p, 47, p)) % p == 0`,
computed with Python integer semantics (`%` on a positive modulus is
`Int.emod`, and `pow(a, b, m) = a ^ b % m`). -/
def bruteOmega (p : ℕ) : ℕ :=
  ((List.range p).filter fun n : ℕ =>
    ((n : ℤ) ^ 47 % (p : ℤ) - (((n : ℤ) - 1) % (p : ℤ)) ^ 47 % (p : ℤ)) % (p : ℤ) == 0).length

/-- Computational reflection of `bruteOmega` over `ℕ` (kernel-friendly:
`Nat.pow` and `Nat.mod` are arbitrary-precision kernel primitives).
For `n < p` the Python value `(n - 1) % p` is `(n + p - 1) % p`, and the
difference of two residues is `0 mod p` iff they are equal; the
equivalence with `bruteOmega` is proved in `bruteOmega_eq_nat`. -/
def bruteOmegaNat (p : ℕ) : ℕ :=
  ((List.range p).filter fun n => n ^ 47 % p == ((n + p - 1) % p) ^ 47 % p).length

/-- `verify_omega_computationally` from `scripts/compute_bateman_horn.py`
lines 114-143: `all_match` is `True` exactly when the brute-force count
agrees with `omega_Q p` for every sieved prime `p ≤ p_max`.  The sieve
failure at `p_max = 0` propagates as `none`. -/
def verify_omega_computationally (p_max : ℕ) : Option Bool :=
  (sieve_primes p_max).map fun ps => ps.all fun p => bruteOmega p == omega_Q p

/-- The three-way classification printed by `compute_CQ`
(`scripts/compute_bateman_horn.py` line 88). -/
inductive PrimeClass where
  | ramified
  | shielding
  | splitting
deriving DecidableEq

/-- `ptype = "SPLIT" if w == 46 else ("ramified" if p == 47 else
"shield")` from `scripts/compute_bateman_horn.py` line 88. -/
def classify (p : ℕ) : PrimeClass :=
  if omega_Q p = 46 then PrimeClass.splitting
  else if p = 47 then PrimeClass.ramified
  else PrimeClass.shielding

/-- The integer state of the `compute_CQ` accumulator
(`scripts/compute_bateman_horn.py` lines 64-67): the classification
counters `n_shielding` and `n_splitting`.  The floating-point running
products `C_Q` and `shielding_product` are not modelled (floating-point
rounding is outside the embedding); the claims under verification
concern only the counters and the classification. -/
structure CQCounts where
  nShielding : ℕ
  nSplitting : ℕ
deriving DecidableEq

/-- One iteration of the `for p in primes` loop of `compute_CQ`
(`scripts/compute_bateman_horn.py` lines 76-85), restricted to the
counter state: `if w == 0: n_shielding += 1 else: n_splitting += 1`. -/
def cqStep (s : CQCounts) (p : ℕ) : CQCounts :=
  if omega_Q p = 0 then { s with nShielding := s.nShielding + 1 }
  else { s with nSplitting := s.nSplitting + 1 }

/-- The counter state of `compute_CQ p_max` after folding the sieved
primes in ascending order (`scripts/compute_bateman_horn.py` lines
56-111). -/
def compute_CQ_counts (p_max : ℕ) : Option CQCounts :=
  (sieve_primes p_max).map fun ps => ps.foldl cqStep { nShielding := 0, nSplitting := 0 }

/-! ## The exclusion theorem (claims C1, C8, C9, C6) -/

/-- `Q(n) ≡ 1 (mod 3)` for every integer `n`, by reduction to `ZMod 3`. -/
lemma Q_emod_three (n : ℤ) : Q n % 3 = 1 := by
  have h3 : ∀ x : ZMod 3, x ^ 47 - (x - 1) ^ 47 = 1 := by decide
  have hcast : ((Q n : ℤ) : ZMod 3) = ((1 : ℤ) : ZMod 3) := by
    simp only [Q]
    push_cast
    exact h3 (n : ZMod 3)
  have hmod : Q n ≡ 1 [ZMOD (3 : ℕ)] := (ZMod.intCast_eq_intCast_iff _ _ _).mp hcast
  have h13 : Q n % 3 = 1 % 3 := hmod
  omega

/-- C1: for every integer `n ≥ 2`, `Q(n) mod 3 = 1`, and consequently
`verify_exclusion_theorem max_n` returns `true` for every `max_n ≥ 2`
(no `n` in the scanned range can trigger the early `False` return). -/
theorem exclusion_theorem_holds :
    (∀ n : ℤ, 2 ≤ n → Q n % 3 = 1) ∧
    (∀ max_n : ℕ, 2 ≤ max_n → verify_exclusion_theorem max_n = true) := by
  constructor
  · intro n _
    exact Q_emod_three n
  · intro m _
    simp only [verify_exclusion_theorem, List.all_eq_true]
    intro x _
    simpa [beq_iff_eq] using Q_emod_three (x : ℤ)

/-- Witness for C1 at `n = 5`, `max_n = 10`. -/
theorem exclusion_theorem_holds_witness :
    Q 5 % 3 = 1 ∧ verify_exclusion_theorem 10 = true :=
  ⟨exclusion_theorem_holds.1 5 (by norm_num), exclusion_theorem_holds.2 10 (by norm_num)⟩

/-- C8: `Q` is exactly `n^47 - (n-1)^47`, with `Q 2 = 2^47 - 1 =
140737488355327`. -/
theorem Q_exact_formula :
    (∀ n : ℤ, Q n = n ^ 47 - (n - 1) ^ 47) ∧
    Q 2 = 140737488355327 ∧ (140737488355327 : ℤ) = 2 ^ 47 - 1 := by
  refine ⟨fun n => rfl, ?_, by norm_num⟩
  simp only [Q]
  norm_num

/-- `Q(n) ≥ 1` for every integer `n`: the 47th power is strictly
monotone on `ℤ`. -/
lemma Q_pos (n : ℤ) : 1 ≤ Q n := by
  have hmono : StrictMono fun a : ℤ => a ^ 47 :=
    Odd.strictMono_pow (R := ℤ) ⟨23, by norm_num⟩
  have hlt : (n - 1) ^ 47 < n ^ 47 := hmono (by omega)
  simp only [Q]
  omega

/-- C9: `Q(n) ≥ 1` for every integer `n` (positive, zero or negative),
so every candidate `verify_quadruplet` passes to the primality tester is
a positive integer. -/
theorem Q_candidates_positive :
    (∀ n : ℤ, 1 ≤ Q n) ∧ ∀ (n q : ℤ), q ∈ quadrupletCandidates n → 1 ≤ q := by
  refine ⟨Q_pos, ?_⟩
  intro n q hq
  simp only [quadrupletCandidates, List.mem_map] at hq
  obtain ⟨i, _, rfl⟩ := hq
  exact Q_pos _

/-- Witness for C9 at `n = 0` and the candidate `Q 3`. -/
theorem Q_candidates_positive_witness : (1 : ℤ) ≤ Q 0 ∧ (1 : ℤ) ≤ Q 3 :=
  ⟨Q_candidates_positive.1 0, Q_candidates_positive.2 0 (Q 3) (by decide)⟩

/-- C6: `mod_pow` fails with `InvalidModulus` exactly on a non-positive
modulus, and for a positive modulus returns `base ^ exponent mod
modulus`, a value in `[0, modulus)`. -/
theorem mod_pow_contract :
    (∀ (b : ℤ) (e : ℕ) (m : ℤ), m ≤ 0 → mod_pow b e m = Except.error ModPowError.invalidModulus) ∧
    (∀ (b : ℤ) (e : ℕ) (m : ℤ), 0 < m →
      mod_pow b e m = Except.ok (b ^ e % m) ∧ 0 ≤ b ^ e % m ∧ b ^ e % m < m) := by
  constructor
  · intro b e m hm
    simp [mod_pow, hm]
  · intro b e m hm
    exact ⟨by simp [mod_pow, not_le.mpr hm], Int.emod_nonneg _ (by omega),
      Int.emod_lt_of_pos _ hm⟩

/-- Witness for C6 at modulus `-1` (failure) and modulus `7`. -/
theorem mod_pow_contract_witness :
    mod_pow 2 3 (-1) = Except.error ModPowError.invalidModulus ∧
    (mod_pow 2 10 7 = Except.ok ((2 : ℤ) ^ 10 % 7) ∧
      0 ≤ (2 : ℤ) ^ 10 % 7 ∧ (2 : ℤ) ^ 10 % 7 < 7) :=
  ⟨mod_pow_contract.1 2 3 (-1) (by norm_num), mod_pow_contract.2 2 10 7 (by norm_num)⟩

/-! ## Miller-Rabin soundness on primes (claims C2, C7, C10) -/

/-- `split2Aux` is correct whenever the fuel dominates the input:
it returns `(r, d)` with `m = 2^r * d` and `d` odd. -/
lemma split2Aux_spec :
    ∀ fuel m : ℕ, m ≤ fuel → 0 < m →
      m = 2 ^ (split2Aux fuel m).1 * (split2Aux fuel m).2 ∧ (split2Aux fuel m).2 % 2 = 1 := by
  intro fuel
  induction fuel with
  | zero => intro m h1 h2; omega
  | succ fuel ih =>
    intro m hm hpos
    by_cases hc : m % 2 = 0 ∧ m ≠ 0
    · have hrec := ih (m / 2) (by omega) (by omega)
      simp only [split2Aux, if_pos hc]
      refine ⟨?_, hrec.2⟩
      calc m = 2 * (m / 2) := by omega
        _ = 2 * (2 ^ (split2Aux fuel (m / 2)).1 * (split2Aux fuel (m / 2)).2) := by
              rw [← hrec.1]
        _ = 2 ^ ((split2Aux fuel (m / 2)).1 + 1) * (split2Aux fuel (m / 2)).2 := by ring
    · simp only [split2Aux, if_neg hc]
      exact ⟨by simp, by omega⟩

/-- `split2 m = (r, d)` satisfies `m = 2^r * d` with `d` odd, for `m > 0`. -/
lemma split2_spec (m : ℕ) (hm : 0 < m) :
    m = 2 ^ (split2 m).1 * (split2 m).2 ∧ (split2 m).2 % 2 = 1 :=
  split2Aux_spec m m le_rfl hm

/-- Casting the value of a `ZMod` element back is the identity. -/
lemma castValEq {p : ℕ} [NeZero p] (c : ZMod p) : ((c.val : ℕ) : ZMod p) = c :=
  ZMod.natCast_rightInverse c

/-- The natural-number computation `a ^ b % p` is the value of the
corresponding `ZMod p` power. -/
lemma natPow_mod_val {p : ℕ} [NeZero p] (a b : ℕ) :
    a ^ b % p = ((a : ZMod p) ^ b).val := by
  have h : ((a ^ b : ℕ) : ZMod p) = (a : ZMod p) ^ b := by push_cast; ring
  rw [← h, ZMod.val_natCast]

/-- Squaring on values: `c.val ^ 2 % p = (c ^ 2).val`. -/
lemma val_sq_mod {p : ℕ} [NeZero p] (c : ZMod p) : c.val ^ 2 % p = (c ^ 2).val := by
  have h : ((c.val ^ 2 : ℕ) : ZMod p) = c ^ 2 := by
    push_cast
    rw [castValEq]
  rw [← h, ZMod.val_natCast]

/-- The value of `-1` modulo `p ≥ 2` is `p - 1`. -/
lemma val_neg_one_eq {p : ℕ} (hp : 2 ≤ p) : (-1 : ZMod p).val = p - 1 := by
  obtain ⟨m, rfl⟩ : ∃ m, p = m + 1 := ⟨p - 1, by omega⟩
  simp only [Nat.add_sub_cancel]
  exact ZMod.val_neg_one m

/-- In the field `ZMod p`, a square root of `1` is `1` or `-1`. -/
lemma sq_eq_one_cases {p : ℕ} [Fact p.Prime] (x : ZMod p) (h : x ^ 2 = 1) :
    x = 1 ∨ x = -1 :=
  mul_self_eq_one_iff.mp (by rwa [← sq])

/-- Descent along repeated squaring: if `b ^ (2^r) = 1` in `ZMod p`
(`p` prime), then either `b = 1` or some intermediate power
`b ^ (2^j)` with `j < r` equals `-1`. -/
lemma pow_two_pow_descent {p : ℕ} [Fact p.Prime] (b : ZMod p) :
    ∀ r : ℕ, b ^ 2 ^ r = 1 → b = 1 ∨ ∃ j, j < r ∧ b ^ 2 ^ j = -1 := by
  intro r
  induction r with
  | zero => intro h; exact Or.inl (by simpa using h)
  | succ r ih =>
    intro h
    have hsq : (b ^ 2 ^ r) ^ 2 = 1 := by
      rw [← pow_mul, ← pow_succ]
      exact h
    rcases sq_eq_one_cases _ hsq with h1 | hm1
    · rcases ih h1 with hb | ⟨j, hj, hbj⟩
      · exact Or.inl hb
      · exact Or.inr ⟨j, Nat.lt_succ_of_lt hj, hbj⟩
    · exact Or.inr ⟨r, Nat.lt_succ_self r, hm1⟩

/-- If some later square of `c` reaches `-1` within the remaining fuel,
the witness-squaring loop breaks and returns `true`. -/
lemma mrWitnessLoop_true {p : ℕ} [NeZero p] (hp : 2 ≤ p) :
    ∀ (t : ℕ) (c : ZMod p) (j : ℕ), 1 ≤ j → j ≤ t → c ^ 2 ^ j = -1 →
      mrWitnessLoop p c.val t = true := by
  intro t
  induction t with
  | zero => intro c j h1 h2 _; omega
  | succ t ih =>
    intro c j h1 h2 hcj
    simp only [mrWitnessLoop]
    rw [val_sq_mod]
    by_cases hx : (c ^ 2).val = p - 1
    · rw [if_pos hx]
    · rw [if_neg hx]
      have hc2 : c ^ 2 ≠ -1 := by
        intro h
        exact hx (by rw [h, val_neg_one_eq hp])
      have hj2 : 2 ≤ j := by
        rcases Nat.lt_or_ge j 2 with hj | hj
        · exfalso
          have hj1 : j = 1 := by omega
          rw [hj1] at hcj
          simp only [pow_one] at hcj
          exact hc2 hcj
        · exact hj
      refine ih (c ^ 2) (j - 1) (by omega) (by omega) ?_
      rw [← pow_mul]
      have he : 2 * 2 ^ (j - 1) = 2 ^ j := by
        have hj : j - 1 + 1 = j := by omega
        calc 2 * 2 ^ (j - 1) = 2 ^ (j - 1) * 2 := by ring
          _ = 2 ^ (j - 1 + 1) := (pow_succ 2 (j - 1)).symm
          _ = 2 ^ j := by rw [hj]
      rw [he]
      exact hcj

/-- For a prime `p ≥ 5` and any drawn witness `a ∈ [2, p-2]`, one
Miller-Rabin round passes: `p - 1 = 2^r * d` with `d` odd, and Fermat's
little theorem together with the square-root-of-unity descent shows the
round reaches `1` or `-1` in time. -/
lemma millerRabinRound_prime {p : ℕ} (hp : p.Prime) (h5 : 5 ≤ p) (d r : ℕ)
    (hrd : p - 1 = 2 ^ r * d) (a : ℕ) (ha2 : 2 ≤ a) (han : a ≤ p - 2) :
    millerRabinRound p d r a = true := by
  haveI : Fact p.Prime := ⟨hp⟩
  haveI : NeZero p := ⟨by omega⟩
  haveI : Fact (1 < p) := ⟨by omega⟩
  have haval : (a : ZMod p).val = a := ZMod.val_natCast_of_lt (by omega)
  have hA0 : (a : ZMod p) ≠ 0 := by
    intro h
    rw [h, ZMod.val_zero] at haval
    omega
  have hfermat : ((a : ZMod p) ^ d) ^ 2 ^ r = 1 := by
    rw [← pow_mul, mul_comm d (2 ^ r), ← hrd]
    exact ZMod.pow_card_sub_one_eq_one hA0
  have hx : a ^ d % p = ((a : ZMod p) ^ d).val := natPow_mod_val a d
  simp only [millerRabinRound]
  rcases pow_two_pow_descent ((a : ZMod p) ^ d) r hfermat with hb1 | ⟨j, hjr, hbj⟩
  · rw [if_pos (Or.inl (by rw [hx, hb1, ZMod.val_one]))]
  · rcases Nat.eq_zero_or_pos j with hj0 | hjpos
    · rw [hj0] at hbj
      simp only [pow_zero, pow_one] at hbj
      rw [if_pos (Or.inr (by rw [hx, hbj, val_neg_one_eq (by omega)]))]
    · by_cases hfirst : a ^ d % p = 1 ∨ a ^ d % p = p - 1
      · rw [if_pos hfirst]
      · rw [if_neg hfirst, hx]
        exact mrWitnessLoop_true (by omega) (r - 1) ((a : ZMod p) ^ d) j hjpos (by omega) hbj

/-- On a prime input, `is_prime_miller_rabin` returns `true` for every
round count and every stream of valid witness draws. -/
lemma mr_true_of_prime (n k : ℕ) (ws : ℕ → ℕ) (hp : n.Prime)
    (hws : ∀ i, i < k → 2 ≤ ws i ∧ ws i ≤ n - 2) :
    is_prime_miller_rabin n k ws = true := by
  by_cases h2 : n = 2
  · simp [is_prime_miller_rabin, h2]
  by_cases h3 : n = 3
  · simp [is_prime_miller_rabin, h3]
  have h4 : n ≠ 4 := by
    rintro rfl
    norm_num at hp
  have h5 : 5 ≤ n := by
    have := hp.two_le
    omega
  have hodd : n % 2 = 1 := by
    have heven : ¬ Even n := fun he => h2 (hp.even_iff.mp he)
    rw [Nat.even_iff] at heven
    omega
  have hsplit := split2_spec (n - 1) (by omega)
  simp only [is_prime_miller_rabin]
  rw [if_neg (by omega : ¬ n < 2), if_neg (by omega : ¬ (n = 2 ∨ n = 3)),
    if_neg (by omega : ¬ n % 2 = 0)]
  simp only [List.all_eq_true]
  intro t ht
  rw [List.mem_range] at ht
  exact millerRabinRound_prime hp h5 _ _ hsplit.1 (ws t) (hws t ht).1 (hws t ht).2

/-- C2: whenever `is_prime_miller_rabin` returns `false` (on valid
witness draws), the input is composite with certainty; equivalently, on
a prime input it returns `true` for every round count and every stream
of valid draws. -/
theorem miller_rabin_no_false_negatives :
    (∀ (n k : ℕ) (ws : ℕ → ℕ), (∀ i, i < k → 2 ≤ ws i ∧ ws i ≤ n - 2) →
      is_prime_miller_rabin n k ws = false → ¬ n.Prime) ∧
    (∀ (n k : ℕ) (ws : ℕ → ℕ), n.Prime → (∀ i, i < k → 2 ≤ ws i ∧ ws i ≤ n - 2) →
      is_prime_miller_rabin n k ws = true) := by
  constructor
  · intro n k ws hws hfalse hp
    rw [mr_true_of_prime n k ws hp hws] at hfalse
    exact Bool.noConfusion hfalse
  · intro n k ws hp hws
    exact mr_true_of_prime n k ws hp hws

/-- Witness for C2 at `n = 7`, one round, draw `2`. -/
theorem miller_rabin_no_false_negatives_witness :
    is_prime_miller_rabin 7 1 (fun _ => 2) = true :=
  miller_rabin_no_false_negatives.2 7 1 (fun _ => 2) (by norm_num)
    (fun i _ => ⟨by norm_num, by norm_num⟩)

/-- C10: with zero rounds the witness loop never runs, so every odd
`n ≥ 5` is reported prime regardless of primality. -/
theorem miller_rabin_zero_rounds (n : ℕ) (ws : ℕ → ℕ) (h5 : 5 ≤ n) (hodd : n % 2 = 1) :
    is_prime_miller_rabin n 0 ws = true := by
  simp only [is_prime_miller_rabin]
  rw [if_neg (by omega : ¬ n < 2), if_neg (by omega : ¬ (n = 2 ∨ n = 3)),
    if_neg (by omega : ¬ n % 2 = 0)]
  simp

/-- Witness for C10 at the composite `n = 9 = 3 * 3`. -/
theorem miller_rabin_zero_rounds_witness :
    is_prime_miller_rabin 9 0 (fun _ => 2) = true :=
  miller_rabin_zero_rounds 9 (fun _ => 2) (by norm_num) (by norm_num)

/-- C7 counterexample: the composite `121 = 11 * 11` is reported prime
when every one of the 25 rounds draws the strong liar `3` (a valid draw,
since `2 ≤ 3 ≤ 121 - 2`): `3^15 mod 121 = 1`, so every round passes.
Hence `is_prime_miller_rabin` does not return `false` on every composite
below 10000 — agreement with the sieve holds only up to the stated
`4^-rounds` error probability, not with certainty. -/
theorem miller_rabin_liar_counterexample :
    is_prime_miller_rabin 121 25 (fun _ => 3) = true ∧ ¬ Nat.Prime 121 ∧
    2 ≤ 3 ∧ 3 ≤ 121 - 2 :=
  ⟨by decide, by norm_num, by norm_num, by norm_num⟩

/-- C7 amended: on every prime below 10000 (indeed on every prime) the
test with 25 rounds returns `true` for all valid draw streams, and the
trivial cases hold for every `n`: `n < 2` gives `false`, `n ∈ {2, 3}`
gives `true`, even `n > 3` gives `false`.  A composite odd `n ≥ 5` may
be reported `true` when every drawn witness is a strong liar. -/
theorem miller_rabin_matches_sieve_amended :
    (∀ (n : ℕ) (ws : ℕ → ℕ), n < 10000 → n.Prime →
      (∀ i, i < 25 → 2 ≤ ws i ∧ ws i ≤ n - 2) → is_prime_miller_rabin n 25 ws = true) ∧
    (∀ (n k : ℕ) (ws : ℕ → ℕ), n < 2 → is_prime_miller_rabin n k ws = false) ∧
    (∀ (k : ℕ) (ws : ℕ → ℕ),
      is_prime_miller_rabin 2 k ws = true ∧ is_prime_miller_rabin 3 k ws = true) ∧
    (∀ (n k : ℕ) (ws : ℕ → ℕ), n % 2 = 0 → 3 < n → is_prime_miller_rabin n k ws = false) := by
  refine ⟨?_, ?_, ?_, ?_⟩
  · intro n ws _ hp hws
    exact mr_true_of_prime n 25 ws hp hws
  · intro n k ws h
    simp [is_prime_miller_rabin, h]
  · intro k ws
    constructor <;> simp [is_prime_miller_rabin]
  · intro n k ws he h3
    simp only [is_prime_miller_rabin]
    rw [if_neg (by omega : ¬ n < 2), if_neg (by omega : ¬ (n = 2 ∨ n = 3)), if_pos he]

/-- Witness for the amended C7 at `n = 7` (prime), `n = 1`, `n = 2` and
`n = 8` (even). -/
theorem miller_rabin_matches_sieve_amended_witness :
    is_prime_miller_rabin 7 25 (fun _ => 2) = true ∧
    is_prime_miller_rabin 1 25 (fun _ => 2) = false ∧
    is_prime_miller_rabin 2 25 (fun _ => 2) = true ∧
    is_prime_miller_rabin 8 25 (fun _ => 2) = false :=
  ⟨miller_rabin_matches_sieve_amended.1 7 (fun _ => 2) (by norm_num) (by norm_num)
      (fun i _ => ⟨by norm_num, by norm_num⟩),
    miller_rabin_matches_sieve_amended.2.1 1 25 (fun _ => 2) (by norm_num),
    (miller_rabin_matches_sieve_amended.2.2.1 25 (fun _ => 2)).1,
    miller_rabin_matches_sieve_amended.2.2.2 8 25 (fun _ => 2) (by norm_num) (by norm_num)⟩

/-! ## Correctness of the sieve (claims C3, C4, C5) -/

/-- `getD` after a single `set`. -/
lemma getD_set (t : List Bool) (a j : ℕ) (b d : Bool) :
    (t.set a b).getD j d = if a = j ∧ j < t.length then b else t.getD j d := by
  rw [List.getD_eq_getElem?_getD, List.getElem?_set, List.getD_eq_getElem?_getD]
  by_cases h1 : a = j
  · subst h1
    by_cases h2 : a < t.length
    · simp [h2]
    · rw [if_pos rfl, if_neg h2, if_neg (by tauto), List.getElem?_eq_none (by omega)]
  · rw [if_neg h1, if_neg (by tauto)]

/-- Folding `set _ false` preserves the length. -/
lemma foldSet_length : ∀ (js : List ℕ) (t : List Bool),
    (js.foldl (fun s j => s.set j false) t).length = t.length := by
  intro js
  induction js with
  | nil => intro t; rfl
  | cons a js ih =>
    intro t
    rw [List.foldl_cons, ih, List.length_set]

/-- Value characterization of folding `set _ false`: an entry reads
`false` afterwards iff it already did, or its index is an in-range
element of the fold list. -/
lemma foldSet_getD_false : ∀ (js : List ℕ) (t : List Bool) (j : ℕ),
    ((js.foldl (fun s j' => s.set j' false) t).getD j false = false ↔
      t.getD j false = false ∨ (j ∈ js ∧ j < t.length)) := by
  intro js
  induction js with
  | nil => intro t j; simp
  | cons a js ih =>
    intro t j
    rw [List.foldl_cons, ih (t.set a false) j, List.length_set, getD_set]
    by_cases hc : a = j ∧ j < t.length
    · rw [if_pos hc]
      simp only [List.mem_cons]
      exact iff_of_true (Or.inl trivial) (Or.inr ⟨Or.inl hc.1.symm, hc.2⟩)
    · rw [if_neg hc]
      simp only [List.mem_cons]
      constructor
      · rintro (h | ⟨hm, hl⟩)
        · exact Or.inl h
        · exact Or.inr ⟨Or.inr hm, hl⟩
      · rintro (h | ⟨hm | hm, hl⟩)
        · exact Or.inl h
        · exact absurd ⟨hm.symm, hl⟩ hc
        · exact Or.inr ⟨hm, hl⟩

/-- Value characterization of the initial table: an entry reads `false`
iff its index is `0`, `1`, or out of range. -/
lemma initialTable_getD_false (n j : ℕ) :
    ((((List.replicate (n + 1) true).set 0 false).set 1 false).getD j false = false) ↔
      (j < 2 ∨ n < j) := by
  rw [List.getD_eq_getElem?_getD, List.getElem?_set, List.getElem?_set, List.getElem?_replicate]
  simp only [List.length_set, List.length_replicate]
  by_cases h1 : 1 = j
  · rw [if_pos h1]
    by_cases hl : 1 < n + 1
    · rw [if_pos hl]
      exact iff_of_true rfl (by omega)
    · rw [if_neg hl]
      exact iff_of_true rfl (by omega)
  · rw [if_neg h1]
    by_cases h0 : 0 = j
    · rw [if_pos h0, if_pos (by omega : 0 < n + 1)]
      exact iff_of_true rfl (by omega)
    · rw [if_neg h0]
      by_cases hj : j < n + 1
      · rw [if_pos hj]
        exact iff_of_false (by simp) (by omega)
      · rw [if_neg hj]
        exact iff_of_true rfl (by omega)

/-- Membership in the marked range `range(i*i, n + 1, i)`: exactly the
multiples of `i` between `i*i` and `n`. -/
lemma mem_markRange (n i j : ℕ) (hi : 1 ≤ i) :
    j ∈ List.range' (i * i) ((n + 1 - i * i + i - 1) / i) i ↔
      (i ∣ j ∧ i * i ≤ j ∧ j ≤ n) := by
  rw [List.mem_range']
  constructor
  · rintro ⟨k, hk, rfl⟩
    refine ⟨⟨i + k, by ring⟩, Nat.le_add_right _ _, ?_⟩
    by_cases hle : i * i ≤ n
    · have h2 : (k + 1) * i ≤ n + 1 - i * i + i - 1 := (Nat.le_div_iff_mul_le hi).mp hk
      rw [Nat.succ_mul, Nat.mul_comm k i] at h2
      omega
    · have hz : n + 1 - i * i = 0 := by omega
      rw [hz] at hk
      rw [Nat.div_eq_of_lt (by omega)] at hk
      omega
  · rintro ⟨⟨m, rfl⟩, hge, hle⟩
    have hm : i ≤ m := Nat.le_of_mul_le_mul_left hge hi
    refine ⟨m - i, ?_, ?_⟩
    · rw [Nat.lt_iff_add_one_le, Nat.le_div_iff_mul_le hi, Nat.succ_mul, Nat.sub_mul]
      have hmi : m * i = i * m := Nat.mul_comm m i
      have hii : i * i ≤ i * m := hge
      omega
    · rw [← Nat.mul_add, Nat.add_sub_cancel' hm]

/-- A number `i ≥ 2` with no prime factor `p < i` satisfying `p * p ≤ i`
is prime (otherwise its least factor would qualify). -/
lemma unmarked_prime (i : ℕ) (h2 : 2 ≤ i)
    (h : ¬∃ p, Nat.Prime p ∧ p < i ∧ p ∣ i ∧ p * p ≤ i) : Nat.Prime i := by
  by_contra hni
  have h1 : i ≠ 1 := by omega
  have hq := Nat.minFac_prime h1
  have hqd := Nat.minFac_dvd i
  have hsq : i.minFac * i.minFac ≤ i := by
    have hs := Nat.minFac_sq_le_self (by omega) hni
    rwa [pow_two] at hs
  have hlt : i.minFac < i := by
    rcases Nat.lt_or_ge i.minFac i with hl | hl
    · exact hl
    · exfalso
      have hle : i.minFac ≤ i := Nat.le_of_dvd (by omega) hqd
      have heq : i.minFac = i := le_antisymm hle hl
      rw [heq] at hsq
      have h2i : 2 * i ≤ i * i := Nat.mul_le_mul_right i h2
      omega
  exact h ⟨i.minFac, hq, hlt, hqd, hsq⟩

/-- For `2 ≤ j ≤ n`, absence of a prime factor `p ≤ √n` with `p*p ≤ j`
is equivalent to primality of `j`. -/
lemma no_factor_iff_prime (n j : ℕ) (h2 : 2 ≤ j) (hn : j ≤ n) :
    (¬∃ p, Nat.Prime p ∧ p < Nat.sqrt n + 1 ∧ p ∣ j ∧ p * p ≤ j) ↔ Nat.Prime j := by
  constructor
  · intro h
    by_contra hni
    have h1 : j ≠ 1 := by omega
    have hq := Nat.minFac_prime h1
    have hqd := Nat.minFac_dvd j
    have hsq : j.minFac * j.minFac ≤ j := by
      have hs := Nat.minFac_sq_le_self (by omega) hni
      rwa [pow_two] at hs
    have hsqrt : j.minFac < Nat.sqrt n + 1 := by
      have : j.minFac ≤ Nat.sqrt n := Nat.le_sqrt.mpr (le_trans hsq hn)
      omega
    exact h ⟨j.minFac, hq, hsqrt, hqd, hsq⟩
  · rintro hj ⟨p, hp, _, hpd, hpsq⟩
    rcases hj.eq_one_or_self_of_dvd p hpd with h1 | h1
    · exact hp.one_lt.ne' h1
    · subst h1
      have h2p : 2 * p ≤ p * p := Nat.mul_le_mul_right p h2
      omega

/-- Invariant of the outer marking loop before processing index `i0`:
the table has size `n + 1`, everything past `n` reads `false` (out of
range), and an in-range entry `j` is marked iff `j < 2` or some prime
`p < i0` divides `j` with `p * p ≤ j`. -/
def MarkInv (n i0 : ℕ) (t : List Bool) : Prop :=
  t.length = n + 1 ∧
  (∀ j, n < j → t.getD j false = false) ∧
  (∀ j, j ≤ n →
    (t.getD j false = false ↔ (j < 2 ∨ ∃ p, Nat.Prime p ∧ p < i0 ∧ p ∣ j ∧ p * p ≤ j)))

/-- The initial table satisfies the invariant at `i0 = 2`. -/
lemma markInv_init (n : ℕ) :
    MarkInv n 2 (((List.replicate (n + 1) true).set 0 false).set 1 false) := by
  refine ⟨by simp, ?_, ?_⟩
  · intro j hj
    rw [initialTable_getD_false]
    omega
  · intro j hj
    rw [initialTable_getD_false]
    constructor
    · rintro (h | h)
      · exact Or.inl h
      · omega
    · rintro (h | ⟨p, hp, hlt, _, _⟩)
      · exact Or.inl h
      · have := hp.two_le
        omega

/-- One marking step preserves the invariant, advancing the bound. -/
lemma sieveMark_minv (n i : ℕ) (hi : 2 ≤ i) (t : List Bool) (ht : MarkInv n i t) :
    MarkInv n (i + 1) (sieveMark n t i) := by
  obtain ⟨hlen, hoor, hch⟩ := ht
  rw [sieveMark]
  by_cases hg : t.getD i false = true
  · rw [if_pos hg]
    have hin : i ≤ n := by
      by_contra hni
      rw [hoor i (by omega)] at hg
      exact Bool.noConfusion hg
    have hnf : ¬(i < 2 ∨ ∃ p, Nat.Prime p ∧ p < i ∧ p ∣ i ∧ p * p ≤ i) := by
      intro hcon
      rw [(hch i hin).mpr hcon] at hg
      exact Bool.noConfusion hg
    have hprime : Nat.Prime i := unmarked_prime i hi (fun hex => hnf (Or.inr hex))
    refine ⟨by rw [foldSet_length]; exact hlen, ?_, ?_⟩
    · intro j hj
      rw [foldSet_getD_false]
      exact Or.inl (hoor j hj)
    · intro j hj
      rw [foldSet_getD_false, hch j hj, hlen, mem_markRange n i j (by omega)]
      constructor
      · rintro (h | h)
        · rcases h with h2 | ⟨p, hp, hlt, hd, hsq⟩
          · exact Or.inl h2
          · exact Or.inr ⟨p, hp, by omega, hd, hsq⟩
        · exact Or.inr ⟨i, hprime, Nat.lt_succ_self i, h.1.1, h.1.2.1⟩
      · rintro (h2 | ⟨p, hpp, hplt, hpd, hpsq⟩)
        · exact Or.inl (Or.inl h2)
        · by_cases hpi : p = i
          · subst hpi
            exact Or.inr ⟨⟨hpd, hpsq, hj⟩, by omega⟩
          · exact Or.inl (Or.inr ⟨p, hpp, by omega, hpd, hpsq⟩)
  · rw [if_neg hg]
    refine ⟨hlen, hoor, ?_⟩
    intro j hj
    rw [hch j hj]
    constructor
    · rintro (h | ⟨p, hp, hlt, hd, hsq⟩)
      · exact Or.inl h
      · exact Or.inr ⟨p, hp, by omega, hd, hsq⟩
    · rintro (h | ⟨p, hp, hlt, hd, hsq⟩)
      · exact Or.inl h
      · by_cases hpi : p = i
        · exfalso
          subst hpi
          have hle1 : p ≤ p * p := Nat.le_mul_of_pos_left p (by omega)
          have hin : p ≤ n := le_trans hle1 (le_trans hsq hj)
          have hgf : t.getD p false = false := by
            rcases Bool.eq_false_or_eq_true (t.getD p false) with hb | hb
            · exact absurd hb hg
            · exact hb
          rcases (hch p hin).mp hgf with hlt2 | ⟨q, hq, hqlt, hqd, _⟩
          · omega
          · rcases hp.eq_one_or_self_of_dvd q hqd with h1 | h1
            · exact hq.one_lt.ne' h1
            · omega
        · exact Or.inr ⟨p, hp, by omega, hd, hsq⟩

/-- Folding consecutive indices preserves the invariant. -/
lemma sieveFold_minv (n : ℕ) : ∀ (cnt i0 : ℕ) (t : List Bool), 2 ≤ i0 → MarkInv n i0 t →
    MarkInv n (i0 + cnt) ((List.range' i0 cnt).foldl (sieveMark n) t) := by
  intro cnt
  induction cnt with
  | zero => intro i0 t _ ht; simpa using ht
  | succ cnt ih =>
    intro i0 t h2 ht
    rw [List.range'_succ, List.foldl_cons]
    have hstep := ih (i0 + 1) (sieveMark n t i0) (by omega) (sieveMark_minv n i0 h2 t ht)
    have heq : i0 + (cnt + 1) = i0 + 1 + cnt := by omega
    rw [heq]
    exact hstep

/-- The finished table satisfies the invariant with bound `√n + 1`. -/
lemma sieveTable_minv (n : ℕ) (hn : 1 ≤ n) : MarkInv n (Nat.sqrt n + 1) (sieveTable n) := by
  have hbase := markInv_init n
  have h := sieveFold_minv n (Nat.sqrt n + 1 - 2) 2 _ le_rfl hbase
  have hs : 0 < Nat.sqrt n := Nat.sqrt_pos.mpr hn
  have heq : 2 + (Nat.sqrt n + 1 - 2) = Nat.sqrt n + 1 := by omega
  rw [heq] at h
  exact h

/-- The finished table reads `true` at `j` exactly when `j` is a prime
at most `n`. -/
lemma sieveTable_getD_true (n j : ℕ) (hn : 1 ≤ n) :
    ((sieveTable n).getD j false = true) ↔ (Nat.Prime j ∧ j ≤ n) := by
  obtain ⟨hlen, hoor, hch⟩ := sieveTable_minv n hn
  by_cases hj : j ≤ n
  · have hc := hch j hj
    rcases Bool.eq_false_or_eq_true ((sieveTable n).getD j false) with hb | hb
    · rw [hb]
      refine iff_of_true rfl ⟨?_, hj⟩
      have hnm : ¬(j < 2 ∨ ∃ p, Nat.Prime p ∧ p < Nat.sqrt n + 1 ∧ p ∣ j ∧ p * p ≤ j) := by
        intro hcon
        rw [hc.mpr hcon] at hb
        exact Bool.noConfusion hb
      push_neg at hnm
      exact (no_factor_iff_prime n j (by omega) hj).mp (by
        rintro ⟨p, hp, hlt, hd, hsq⟩
        have := hnm.2 p hp hlt hd
        omega)
    · rw [hb]
      refine iff_of_false (by simp) ?_
      rintro ⟨hpj, _⟩
      rcases hc.mp hb with h2 | hex
      · exact absurd hpj.two_le (by omega)
      · exact (no_factor_iff_prime n j hpj.two_le hj).mpr hpj hex
  · rw [hoor j (by omega)]
    exact iff_of_false (by simp) (fun hc' => hj hc'.2)

/-- Membership in the sieved list: exactly the primes up to `n`. -/
lemma mem_sieveList (n q : ℕ) (hn : 1 ≤ n) : q ∈ sieveList n ↔ Nat.Prime q ∧ q ≤ n := by
  rw [sieveList, List.mem_filter, List.mem_range'_1]
  constructor
  · rintro ⟨_, hq⟩
    exact (sieveTable_getD_true n q hn).mp hq
  · intro h
    exact ⟨⟨h.1.two_le, by omega⟩, (sieveTable_getD_true n q hn).mpr h⟩

/-- The sieved list is strictly sorted. -/
lemma sorted_sieveList (n : ℕ) : List.Sorted (· < ·) (sieveList n) :=
  List.Pairwise.sublist (List.filter_sublist _) (List.pairwise_lt_range' 2 (n + 1 - 2) 1 (by norm_num))

/-- The sieved list has no duplicates. -/
lemma nodup_sieveList (n : ℕ) : (sieveList n).Nodup := (sorted_sieveList n).nodup

/-- For `n ≥ 1` the sieve returns its list. -/
lemma sieve_primes_eq_some (n : ℕ) (hn : 1 ≤ n) : sieve_primes n = some (sieveList n) := by
  rw [sieve_primes, if_neg (by omega)]

/-- `int(47 ** 0.5) = 6`. -/
lemma sqrt47 : Nat.sqrt 47 = 6 := by
  have h1 : 6 ≤ Nat.sqrt 47 := Nat.le_sqrt.mpr (by norm_num)
  have h2 : Nat.sqrt 47 < 7 := Nat.sqrt_lt.mpr (by norm_num)
  omega

/-- `int(100 ** 0.5) = 10`. -/
lemma sqrt100 : Nat.sqrt 100 = 10 := by
  have h1 : 10 ≤ Nat.sqrt 100 := Nat.le_sqrt.mpr (by norm_num)
  have h2 : Nat.sqrt 100 < 11 := Nat.sqrt_lt.mpr (by norm_num)
  omega

/-- `int(300 ** 0.5) = 17`. -/
lemma sqrt300 : Nat.sqrt 300 = 17 := by
  have h1 : 17 ≤ Nat.sqrt 300 := Nat.le_sqrt.mpr (by norm_num)
  have h2 : Nat.sqrt 300 < 18 := Nat.sqrt_lt.mpr (by norm_num)
  omega

/-- Concrete evaluation of the sieve at 47. -/
lemma sieveList47 : sieveList 47 = [2, 3, 5, 7, 11, 13, 17, 19, 23, 29, 31, 37, 41, 43, 47] := by
  rw [sieveList, sieveTable, sqrt47]
  decide

/-- Concrete evaluation of the sieve at 100. -/
lemma sieveList100 : sieveList 100 = [2, 3, 5, 7, 11, 13, 17, 19, 23, 29, 31, 37, 41, 43, 47,
    53, 59, 61, 67, 71, 73, 79, 83, 89, 97] := by
  rw [sieveList, sieveTable, sqrt100]
  decide

set_option maxRecDepth 40000 in
/-- Concrete evaluation of the sieve at 300. -/
lemma sieveList300 : sieveList 300 = [2, 3, 5, 7, 11, 13, 17, 19, 23, 29, 31, 37, 41, 43, 47,
    53, 59, 61, 67, 71, 73, 79, 83, 89, 97, 101, 103, 107, 109, 113, 127, 131, 137, 139, 149,
    151, 157, 163, 167, 173, 179, 181, 191, 193, 197, 199, 211, 223, 227, 229, 233, 239, 241,
    251, 257, 263, 269, 271, 277, 281, 283, 293] := by
  rw [sieveList, sieveTable, sqrt300]
  decide

/-- C3 counterexample: at limit `0` the source crashes with `IndexError`
(modelled by `none`) instead of returning the empty sequence of primes. -/
theorem sieve_primes_zero_counterexample : sieve_primes 0 = none := rfl

/-- C3 amended: for every limit `≥ 1` the sieve returns the strictly
ascending duplicate-free list of exactly the primes up to the limit, and
`sieve_primes 100` is the literal list of the 25 primes below 100.
At limit `0` the source fails instead (see the counterexample). -/
theorem sieve_primes_correct :
    (∀ limit : ℕ, 1 ≤ limit → ∃ l, sieve_primes limit = some l ∧
      List.Sorted (· < ·) l ∧ l.Nodup ∧ ∀ q : ℕ, q ∈ l ↔ Nat.Prime q ∧ q ≤ limit) ∧
    sieve_primes 100 = some [2, 3, 5, 7, 11, 13, 17, 19, 23, 29, 31, 37, 41, 43, 47,
      53, 59, 61, 67, 71, 73, 79, 83, 89, 97] := by
  constructor
  · intro limit hl
    exact ⟨sieveList limit, sieve_primes_eq_some limit hl, sorted_sieveList limit,
      nodup_sieveList limit, fun q => mem_sieveList limit q hl⟩
  · rw [sieve_primes_eq_some 100 (by norm_num), sieveList100]

/-- Witness for the amended C3 at limit `10`. -/
theorem sieve_primes_correct_witness :
    ∃ l, sieve_primes 10 = some l ∧ List.Sorted (· < ·) l ∧ l.Nodup ∧
      ∀ q : ℕ, q ∈ l ↔ Nat.Prime q ∧ q ≤ 10 :=
  sieve_primes_correct.1 10 (by norm_num)

/-- Python's `(n - 1) % p` on `Int` agrees with `(n + p - 1) % p` on
`ℕ`, for `p ≥ 1`. -/
lemma pyMod_sub_one (p n : ℕ) (hp : 1 ≤ p) :
    ((n : ℤ) - 1) % (p : ℤ) = (((n + p - 1) % p : ℕ) : ℤ) := by
  rcases Nat.eq_zero_or_pos n with rfl | hn
  · have h1 : ((0 + p - 1) % p : ℕ) = p - 1 := by
      rw [Nat.zero_add]
      exact Nat.mod_eq_of_lt (by omega)
    have hp' : (1 : ℤ) ≤ (p : ℤ) := by exact_mod_cast hp
    rw [h1, Nat.cast_sub hp]
    have hsplit : ((0 : ℕ) : ℤ) - 1 = ((p : ℤ) - 1) + (p : ℤ) * (-1) := by push_cast; ring
    rw [hsplit, Int.add_mul_emod_self_left, Int.emod_eq_of_lt (by omega) (by omega)]
    push_cast
    ring
  · have h1 : (n + p - 1) % p = (n - 1) % p := by
      have h2 : n + p - 1 = (n - 1) + p := by omega
      rw [h2, Nat.add_mod_right]
    rw [h1, Int.natCast_mod]
    congr 1
    push_cast [Nat.cast_sub hn]
    ring

/-- The source's per-`n` root test over `Int` agrees with the
kernel-friendly `ℕ` formulation. -/
lemma bruteCond_eq (p n : ℕ) (hp : 1 ≤ p) :
    (((n : ℤ) ^ 47 % (p : ℤ) - (((n : ℤ) - 1) % (p : ℤ)) ^ 47 % (p : ℤ)) % (p : ℤ) == 0) =
      (n ^ 47 % p == ((n + p - 1) % p) ^ 47 % p) := by
  rw [Bool.eq_iff_iff, beq_iff_eq, beq_iff_eq, pyMod_sub_one p n hp]
  have hA : (n : ℤ) ^ 47 % (p : ℤ) = ((n ^ 47 % p : ℕ) : ℤ) := by push_cast; ring
  have hC : (((n + p - 1) % p : ℕ) : ℤ) ^ 47 % (p : ℤ) =
      ((((n + p - 1) % p) ^ 47 % p : ℕ) : ℤ) := by push_cast; ring
  rw [hA, hC]
  have hX : n ^ 47 % p < p := Nat.mod_lt _ (by omega)
  have hY : ((n + p - 1) % p) ^ 47 % p < p := Nat.mod_lt _ (by omega)
  constructor
  · intro h
    have h2 : ((n ^ 47 % p : ℕ) : ℤ) % p = ((((n + p - 1) % p) ^ 47 % p : ℕ) : ℤ) % p := by
      rw [Int.emod_eq_emod_iff_emod_sub_eq_zero]
      exact h
    rw [← Int.natCast_mod, ← Int.natCast_mod] at h2
    have h3 := Nat.cast_injective (R := ℤ) h2
    rwa [Nat.mod_eq_of_lt hX, Nat.mod_eq_of_lt hY] at h3
  · intro h
    rw [h]
    simp

/-- `bruteOmega` equals its `ℕ` reflection for every positive modulus. -/
lemma bruteOmega_eq_nat (p : ℕ) (hp : 1 ≤ p) : bruteOmega p = bruteOmegaNat p := by
  rw [bruteOmega, bruteOmegaNat]
  have hcong : ∀ n ∈ List.range p,
      (((n : ℤ) ^ 47 % (p : ℤ) - (((n : ℤ) - 1) % (p : ℤ)) ^ 47 % (p : ℤ)) % (p : ℤ) == 0) =
        (n ^ 47 % p == ((n + p - 1) % p) ^ 47 % p) := fun n _ => bruteCond_eq p n hp
  rw [List.filter_congr hcong]

set_option maxRecDepth 40000 in
/-- The brute-force root count agrees with `omega_Q` on every sieved
prime up to 300 (checked by computation). -/
lemma omegaAll300 : (sieveList 300).all (fun p => bruteOmegaNat p == omega_Q p) = true := by
  rw [sieveList300]
  decide

/-- C4: for every prime `p < 300`, `omega_Q p` is the brute-force count
of roots of `Q` modulo `p` (`0` at `p = 47`, `46` when `p ≡ 1 mod 47`,
else `0`), and hence `verify_omega_computationally 300` reports success. -/
theorem omega_Q_correct :
    (∀ p : ℕ, Nat.Prime p → p < 300 →
      bruteOmega p = omega_Q p ∧
      omega_Q p = (if p = 47 then 0 else if (p - 1) % 47 = 0 then 46 else 0)) ∧
    verify_omega_computationally 300 = some true := by
  have hall := omegaAll300
  rw [List.all_eq_true] at hall
  constructor
  · intro p hp hlt
    have hmem : p ∈ sieveList 300 := (mem_sieveList 300 p (by norm_num)).mpr ⟨hp, by omega⟩
    have h1 : bruteOmegaNat p = omega_Q p := beq_iff_eq.mp (hall p hmem)
    have h2 : (1 : ℕ) ≤ p := by
      have := hp.two_le
      omega
    exact ⟨(bruteOmega_eq_nat p h2).trans h1, rfl⟩
  · rw [verify_omega_computationally, sieve_primes_eq_some 300 (by norm_num), Option.map_some']
    have hgoal : (sieveList 300).all (fun p => bruteOmega p == omega_Q p) = true := by
      rw [List.all_eq_true]
      intro p hpmem
      have hp2 : Nat.Prime p := ((mem_sieveList 300 p (by norm_num)).mp hpmem).1
      have h2 : (1 : ℕ) ≤ p := by
        have := hp2.two_le
        omega
      have := hall p hpmem
      rwa [← bruteOmega_eq_nat p h2] at this
    exact congrArg some hgoal

/-- Witness for C4 at the primes `53` and `47`. -/
theorem omega_Q_correct_witness :
    (bruteOmega 53 = omega_Q 53 ∧
      omega_Q 53 = (if 53 = 47 then 0 else if (53 - 1) % 47 = 0 then 46 else 0)) ∧
    (bruteOmega 47 = omega_Q 47 ∧
      omega_Q 47 = (if 47 = 47 then 0 else if (47 - 1) % 47 = 0 then 46 else 0)) :=
  ⟨omega_Q_correct.1 53 (by norm_num) (by norm_num),
    omega_Q_correct.1 47 (by norm_num) (by norm_num)⟩

/-- The accumulator counters after folding a prime list: `n_shielding`
counts the primes with `omega_Q p = 0` (which includes the ramified
prime 47), `n_splitting` the rest. -/
lemma cq_fold_counts : ∀ (ps : List ℕ) (s : CQCounts),
    (ps.foldl cqStep s).nShielding = s.nShielding + ps.countP (fun p => omega_Q p == 0) ∧
    (ps.foldl cqStep s).nSplitting = s.nSplitting + ps.countP (fun p => !(omega_Q p == 0)) := by
  intro ps
  induction ps with
  | nil => intro s; simp
  | cons a ps ih =>
    intro s
    rw [List.foldl_cons, List.countP_cons, List.countP_cons]
    obtain ⟨h1, h2⟩ := ih (cqStep s a)
    rw [h1, h2, cqStep]
    by_cases ha : omega_Q a = 0
    · rw [if_pos ha]
      simp [ha]
      omega
    · rw [if_neg ha]
      simp [ha]
      omega

/-- Splitting a `countP` along a second predicate. -/
lemma countP_split (l : List ℕ) (p q : ℕ → Bool) :
    l.countP p = l.countP (fun x => p x && q x) + l.countP (fun x => p x && !q x) := by
  induction l with
  | nil => simp
  | cons a l ih =>
    rw [List.countP_cons, List.countP_cons, List.countP_cons, ih]
    cases hp : p a <;> cases hq : q a <;> simp [hp, hq] <;> omega

/-- `omega_Q` only takes the values `0` and `46`. -/
lemma omega_Q_cases (p : ℕ) : omega_Q p = 0 ∨ omega_Q p = 46 := by
  rw [omega_Q]
  split_ifs <;> simp

/-- Characterization of the three-way classification: exactly one class
per prime, ramified iff `p = 47`, splitting iff `p ≡ 1 (mod 47)` (and
`p ≠ 47`), shielding otherwise. -/
lemma classify_char (p : ℕ) :
    (classify p = PrimeClass.ramified ↔ p = 47) ∧
    (classify p = PrimeClass.splitting ↔ (p ≠ 47 ∧ (p - 1) % 47 = 0)) ∧
    (classify p = PrimeClass.shielding ↔ (p ≠ 47 ∧ (p - 1) % 47 ≠ 0)) := by
  by_cases h47 : p = 47
  · subst h47
    refine ⟨?_, ?_, ?_⟩ <;> simp [classify, omega_Q]
  · by_cases hm : (p - 1) % 47 = 0
    · have hc : classify p = PrimeClass.splitting := by simp [classify, omega_Q, h47, hm]
      rw [hc]
      refine ⟨?_, ?_, ?_⟩ <;> simp [h47, hm]
    · have hc : classify p = PrimeClass.shielding := by simp [classify, omega_Q, h47, hm]
      rw [hc]
      refine ⟨?_, ?_, ?_⟩ <;> simp [h47, hm]

/-- Pointwise: `omega_Q p ≠ 0` is exactly the splitting classification. -/
lemma splitting_pointwise (x : ℕ) :
    (!(omega_Q x == 0)) = (classify x == PrimeClass.splitting) := by
  by_cases h47 : x = 47
  · subst h47
    decide
  · by_cases hm : (x - 1) % 47 = 0
    · have ho : omega_Q x = 46 := by simp [omega_Q, h47, hm]
      have hc : classify x = PrimeClass.splitting := by simp [classify, omega_Q, h47, hm]
      rw [ho, hc]
      decide
    · have ho : omega_Q x = 0 := by simp [omega_Q, h47, hm]
      have hc : classify x = PrimeClass.shielding := by simp [classify, omega_Q, h47, hm]
      rw [ho, hc]
      decide

/-- Pointwise: `omega_Q p = 0` at `p ≠ 47` is exactly the shielding
classification. -/
lemma shielding_pointwise (x : ℕ) :
    ((omega_Q x == 0) && !(x == 47)) = (classify x == PrimeClass.shielding) := by
  by_cases h47 : x = 47
  · subst h47
    decide
  · have hx : (x == 47) = false := beq_eq_false_iff_ne.mpr h47
    by_cases hm : (x - 1) % 47 = 0
    · have ho : omega_Q x = 46 := by simp [omega_Q, h47, hm]
      have hc : classify x = PrimeClass.splitting := by simp [classify, omega_Q, h47, hm]
      rw [ho, hc, hx]
      decide
    · have ho : omega_Q x = 0 := by simp [omega_Q, h47, hm]
      have hc : classify x = PrimeClass.shielding := by simp [classify, omega_Q, h47, hm]
      rw [ho, hc, hx]
      decide

/-- Pointwise: `omega_Q p = 0` at `p = 47` is just `p = 47`. -/
lemma ramified_pointwise (x : ℕ) : ((omega_Q x == 0) && (x == 47)) = (x == 47) := by
  by_cases h47 : x = 47
  · subst h47
    decide
  · have hx : (x == 47) = false := beq_eq_false_iff_ne.mpr h47
    rw [hx, Bool.and_false]

/-- C5 counterexample: over `sieve(47)` (so `p_max = 47 ≥ 47`) the
accumulator reports `n_shielding = 15`, but only `14` of the 15 primes
up to 47 are classified shielding — the ramified prime `47` has
`omega_Q = 0` and is counted by the `n_shielding += 1` branch as well.
Since `15 ≠ 14`, the shielding counter does not equal the number of
primes classified shielding. -/
theorem compute_CQ_counts_counterexample :
    compute_CQ_counts 47 = some ⟨15, 0⟩ ∧
    (sieveList 47).countP (fun p => classify p == PrimeClass.shielding) = 14 ∧
    (15 : ℕ) ≠ 14 := by
  refine ⟨?_, ?_, by norm_num⟩
  · rw [compute_CQ_counts, sieve_primes_eq_some 47 (by norm_num), Option.map_some', sieveList47]
    decide
  · rw [sieveList47]
    decide

/-- C5 amended: after folding `sieve(p_max)` with `p_max ≥ 47`, the
splitting counter equals the number of sieved primes classified
splitting, while the shielding counter equals the number classified
shielding plus one — the ramified prime 47, whose `omega_Q` is `0`, is
also counted by the shielding branch.  Each prime gets exactly one of
the three classifications; over `sieve(300)`, `283` is splitting with
`omega_Q = 46` and `47` is ramified with `omega_Q = 0`. -/
theorem compute_CQ_counts_amended (p_max : ℕ) (h47 : 47 ≤ p_max) :
    ∃ l, sieve_primes p_max = some l ∧
      compute_CQ_counts p_max = some (l.foldl cqStep ⟨0, 0⟩) ∧
      (l.foldl cqStep ⟨0, 0⟩).nSplitting =
        l.countP (fun p => classify p == PrimeClass.splitting) ∧
      (l.foldl cqStep ⟨0, 0⟩).nShielding =
        l.countP (fun p => classify p == PrimeClass.shielding) + 1 ∧
      (∀ p : ℕ, (classify p = PrimeClass.ramified ↔ p = 47) ∧
        (classify p = PrimeClass.splitting ↔ (p ≠ 47 ∧ (p - 1) % 47 = 0)) ∧
        (classify p = PrimeClass.shielding ↔ (p ≠ 47 ∧ (p - 1) % 47 ≠ 0))) ∧
      classify 283 = PrimeClass.splitting ∧ omega_Q 283 = 46 ∧
      classify 47 = PrimeClass.ramified ∧ omega_Q 47 = 0 ∧
      283 ∈ sieveList 300 ∧ 47 ∈ sieveList 300 := by
  have h1 : (1 : ℕ) ≤ p_max := by omega
  have hmem47 : 47 ∈ sieveList p_max :=
    (mem_sieveList p_max 47 h1).mpr ⟨by norm_num, by omega⟩
  obtain ⟨hsh, hsp⟩ := cq_fold_counts (sieveList p_max) ⟨0, 0⟩
  refine ⟨sieveList p_max, sieve_primes_eq_some p_max h1, ?_, ?_, ?_, classify_char, ?_, ?_,
    ?_, ?_, ?_, ?_⟩
  · rw [compute_CQ_counts, sieve_primes_eq_some p_max h1, Option.map_some']
  · rw [hsp, Nat.zero_add]
    simp only [splitting_pointwise]
  · rw [hsh, Nat.zero_add,
      countP_split (sieveList p_max) (fun p => omega_Q p == 0) (fun p => p == 47)]
    simp only [ramified_pointwise, shielding_pointwise]
    rw [← List.count_eq_countP, List.count_eq_one_of_mem (nodup_sieveList p_max) hmem47]
    omega
  · decide
  · decide
  · decide
  · decide
  · exact (mem_sieveList 300 283 (by norm_num)).mpr ⟨by norm_num, by norm_num⟩
  · exact (mem_sieveList 300 47 (by norm_num)).mpr ⟨by norm_num, by norm_num⟩

/-- Witness for the amended C5 at `p_max = 47`. -/
theorem compute_CQ_counts_amended_witness :
    ∃ l, sieve_primes 47 = some l ∧
      compute_CQ_counts 47 = some (l.foldl cqStep ⟨0, 0⟩) ∧
      (l.foldl cqStep ⟨0, 0⟩).nSplitting =
        l.countP (fun p => classify p == PrimeClass.splitting) ∧
      (l.foldl cqStep ⟨0, 0⟩).nShielding =
        l.countP (fun p => classify p == PrimeClass.shielding) + 1 ∧
      (∀ p : ℕ, (classify p = PrimeClass.ramified ↔ p = 47) ∧
        (classify p = PrimeClass.splitting ↔ (p ≠ 47 ∧ (p - 1) % 47 = 0)) ∧
        (classify p = PrimeClass.shielding ↔ (p ≠ 47 ∧ (p - 1) % 47 ≠ 0))) ∧
      classify 283 = PrimeClass.splitting ∧ omega_Q 283 = 46 ∧
      classify 47 = PrimeClass.ramified ∧ omega_Q 47 = 0 ∧
      283 ∈ sieveList 300 ∧ 47 ∈ sieveList 300 :=
  compute_CQ_counts_amended 47 (by norm_num)
